import Mathlib

/-!
Verification of the ga-nurse-jobs scanner (src/scraper.py).

The Python source is shallowly embedded below.  Pure functions become Lean
functions; the stateful parts of `run_scan` become an explicit fold over a
`ScanState`.  The fetched HTTP results are modelled as an input list
`fetched : List (RawJob × String)`: the concatenation, in configuration order
over the (location, query) pairs, of the per-pair raw results, each paired
with the UTC instant at which `normalize_job` stamps it (`scraped_at`).
Machine-level hashing (`hashlib.sha256`) is embedded as an executable SHA-256
over `Nat` bytes reduced modulo 2^32 where the algorithm wraps.
-/

namespace Scraper

/-! ## String helpers (Python semantics: code-point lists) -/

/-- Python slicing `s[:n]` over code points. -/
def strTake (s : String) (n : Nat) : String := String.mk (s.data.take n)

/-- Python `str.lower()` (modelled with the ASCII case map of `Char.toLower`). -/
def strLower (s : String) : String := String.mk (s.data.map Char.toLower)

/-- Does `h` start with `s`? -/
def prefixMatch : List Char → List Char → Bool
  | [], _ => true
  | _ :: _, [] => false
  | a :: s, b :: h => a = b && prefixMatch s h

/-- Python substring test `sub in hay` over code points. -/
def containsSub : List Char → List Char → Bool
  | [], sub => sub.isEmpty
  | a :: t, sub => prefixMatch sub (a :: t) || containsSub t sub

/-- Python `sub in hay` on strings. -/
def strContains (hay sub : String) : Bool := containsSub hay.data sub.data

/-! ## SHA-256 (executable, over `Nat` with explicit `% 2^32`) -/

def w32 : Nat := 4294967296

def add32 (a b : Nat) : Nat := (a + b) % w32

def rotr32 (n x : Nat) : Nat := (x >>> n) ||| ((x <<< (32 - n)) % w32)

def not32 (x : Nat) : Nat := x ^^^ (w32 - 1)

def bsig0 (x : Nat) : Nat := rotr32 2 x ^^^ rotr32 13 x ^^^ rotr32 22 x

def bsig1 (x : Nat) : Nat := rotr32 6 x ^^^ rotr32 11 x ^^^ rotr32 25 x

def ssig0 (x : Nat) : Nat := rotr32 7 x ^^^ rotr32 18 x ^^^ (x >>> 3)

def ssig1 (x : Nat) : Nat := rotr32 17 x ^^^ rotr32 19 x ^^^ (x >>> 10)

def chF (e f g : Nat) : Nat := (e &&& f) ^^^ (not32 e &&& g)

def majF (a b c : Nat) : Nat := (a &&& b) ^^^ (a &&& c) ^^^ (b &&& c)

def shaK : List Nat :=
  [1116352408, 1899447441, 3049323471, 3921009573, 961987163,
   1508970993, 2453635748, 2870763221, 3624381080, 310598401,
   607225278, 1426881987, 1925078388, 2162078206, 2614888103,
   3248222580, 3835390401, 4022224774, 264347078, 604807628,
   770255983, 1249150122, 1555081692, 1996064986, 2554220882,
   2821834349, 2952996808, 3210313671, 3336571891, 3584528711,
   113926993, 338241895, 666307205, 773529912, 1294757372,
   1396182291, 1695183700, 1986661051, 2177026350, 2456956037,
   2730485921, 2820302411, 3259730800, 3345764771, 3516065817,
   3600352804, 4094571909, 275423344, 430227734, 506948616,
   659060556, 883997877, 958139571, 1322822218, 1537002063,
   1747873779, 1955562222, 2024104815, 2227730452, 2361852424,
   2428436474, 2756734187, 3204031479, 3329325298]

structure H8 where
  a : Nat
  b : Nat
  c : Nat
  d : Nat
  e : Nat
  f : Nat
  g : Nat
  h : Nat

def initH : H8 :=
  ⟨1779033703, 3144134277, 1013904242, 2773480762,
   1359893119, 2600822924, 528734635, 1541459225⟩

def compressRound (st : H8) (kw : Nat × Nat) : H8 :=
  let t1 := add32 st.h (add32 (bsig1 st.e) (add32 (chF st.e st.f st.g) (add32 kw.1 kw.2)))
  let t2 := add32 (bsig0 st.a) (majF st.a st.b st.c)
  ⟨add32 t1 t2, st.a, st.b, st.c, add32 st.d t1, st.e, st.f, st.g⟩

/-- Extend a 16-word schedule by `n` further words. -/
def extendW (ws : List Nat) : Nat → List Nat
  | 0 => ws
  | n + 1 =>
    let prev := extendW ws n
    let i := prev.length
    prev ++ [add32 (add32 (prev.getD (i - 16) 0) (ssig0 (prev.getD (i - 15) 0)))
                   (add32 (prev.getD (i - 7) 0) (ssig1 (prev.getD (i - 2) 0)))]

/-- Big-endian 32-bit words from bytes. -/
def toWords : List Nat → List Nat
  | b0 :: b1 :: b2 :: b3 :: rest => (((b0 * 256 + b1) * 256 + b2) * 256 + b3) :: toWords rest
  | _ => []

def compressBlock (hs : H8) (block : List Nat) : H8 :=
  let ws := extendW (toWords block) 48
  let st := (shaK.zip ws).foldl compressRound hs
  ⟨add32 hs.a st.a, add32 hs.b st.b, add32 hs.c st.c, add32 hs.d st.d,
   add32 hs.e st.e, add32 hs.f st.f, add32 hs.g st.g, add32 hs.h st.h⟩

/-- Split into 64-byte blocks; structurally recursive on a fuel bound so the
kernel can evaluate it (the fuel `l.length` always suffices since each step
consumes at least one byte). -/
def chunksGo : Nat → List Nat → List (List Nat)
  | 0, _ => []
  | _, [] => []
  | fuel + 1, a :: t => (a :: t).take 64 :: chunksGo fuel ((a :: t).drop 64)

def chunks64 (l : List Nat) : List (List Nat) := chunksGo l.length l

/-- 8-byte big-endian length field. -/
def lenBytes8 (n : Nat) : List Nat :=
  [(n >>> 56) % 256, (n >>> 48) % 256, (n >>> 40) % 256, (n >>> 32) % 256,
   (n >>> 24) % 256, (n >>> 16) % 256, (n >>> 8) % 256, n % 256]

/-- SHA-256 padding: 0x80, zeros to 56 mod 64, then the bit length. -/
def padMsg (m : List Nat) : List Nat :=
  m ++ 0x80 :: (List.replicate ((119 - (m.length % 64)) % 64) 0 ++ lenBytes8 (8 * m.length))

def hexChar : Nat → Char
  | 0 => '0' | 1 => '1' | 2 => '2' | 3 => '3' | 4 => '4' | 5 => '5' | 6 => '6' | 7 => '7'
  | 8 => '8' | 9 => '9' | 10 => 'a' | 11 => 'b' | 12 => 'c' | 13 => 'd' | 14 => 'e' | 15 => 'f'
  | _ => '0'

def isHexChar (c : Char) : Bool :=
  (decide ('0' ≤ c) && decide (c ≤ '9')) || (decide ('a' ≤ c) && decide (c ≤ 'f'))

def wordHex (w : Nat) : List Char :=
  [hexChar ((w >>> 28) % 16), hexChar ((w >>> 24) % 16), hexChar ((w >>> 20) % 16),
   hexChar ((w >>> 16) % 16), hexChar ((w >>> 12) % 16), hexChar ((w >>> 8) % 16),
   hexChar ((w >>> 4) % 16), hexChar (w % 16)]

def sha256_digestWords (msg : List Nat) : List Nat :=
  let hs := (chunks64 (padMsg msg)).foldl compressBlock initH
  [hs.a, hs.b, hs.c, hs.d, hs.e, hs.f, hs.g, hs.h]

/-- Lowercase hexadecimal digest characters (the `hexdigest()` of the source). -/
def sha256_hexChars (msg : List Nat) : List Char :=
  ((sha256_digestWords msg).map wordHex).flatten

/-- UTF-8 encoding of one code point (Python `str.encode()`). -/
def utf8EncodeChar (c : Char) : List Nat :=
  let n := c.toNat
  if n < 128 then [n]
  else if n < 2048 then [192 ||| (n >>> 6), 128 ||| (n &&& 63)]
  else if n < 65536 then
    [224 ||| (n >>> 12), 128 ||| ((n >>> 6) &&& 63), 128 ||| (n &&& 63)]
  else
    [240 ||| (n >>> 18), 128 ||| ((n >>> 12) &&& 63), 128 ||| ((n >>> 6) &&& 63), 128 ||| (n &&& 63)]

def utf8Bytes (s : String) : List Nat := (s.data.map utf8EncodeChar).flatten

/-! ## Data model

`RawJob` models one entry of the provider's `jobs_results` JSON array: each
field the source reads is `Option`al (a JSON key that may be absent), and
`apply_options` entries carry an optional `link` key.  `Job` models the
normalized dict built by `normalize_job`, plus the `id` key that `run_scan`
adds before filtering. -/

structure RawApplyOption where
  link : Option String
  deriving DecidableEq

structure RawJob where
  title : Option String
  company_name : Option String
  location : Option String
  description : Option String
  apply_options : Option (List RawApplyOption)
  share_link : Option String
  via : Option String
  detected_extensions : Option (List (String × String))
  deriving DecidableEq

structure Job where
  title : String
  company_name : String
  location : String
  description_snippet : String
  detected_extensions : List (String × String)
  apply_link : String
  via : String
  scraped_at : String
  id : String
  deriving DecidableEq

/-- Python truthiness fallback `elif raw.get("share_link"): ...` — an absent or
empty share link is falsy and leaves `apply_link` as the empty string. -/
def share_fallback (sl : Option String) : String :=
  match sl with
  | some s => if s = "" then "" else s
  | none => ""

/-- The `apply_link` selection at the top of `normalize_job`: a truthy (present
and nonempty) `apply_options` list wins with its first entry's link, else the
share-link fallback. -/
def raw_apply_link (raw : RawJob) : String :=
  match raw.apply_options with
  | some (o :: _) => o.link.getD ""
  | some [] => share_fallback raw.share_link
  | none => share_fallback raw.share_link

/-- `normalize_job` from the source; `now` is the UTC instant the source takes
from `datetime.now(timezone.utc).isoformat()`. -/
def normalize_job (raw : RawJob) (now : String) : Job :=
  { title := raw.title.getD "Unknown"
    company_name := raw.company_name.getD "Unknown"
    location := raw.location.getD ""
    description_snippet := strTake (raw.description.getD "") 500
    detected_extensions := raw.detected_extensions.getD []
    apply_link := raw_apply_link raw
    via := raw.via.getD ""
    scraped_at := now
    id := "" }

/-! ## Identity Hasher (`job_id`) -/

/-- `hashlib.sha256(s.encode()).hexdigest()[:12]`. -/
def sha256_prefix12 (s : String) : String :=
  String.mk ((sha256_hexChars (utf8Bytes s)).take 12)

/-- `job_id` over the dict view with `.get(key, "")` defaults. -/
def job_id_of (title company location : Option String) : String :=
  sha256_prefix12 (title.getD "" ++ "-" ++ company.getD "" ++ "-" ++ location.getD "")

/-- `job_id` applied to a normalized job dict, where the three keys are always
present. -/
def job_id (j : Job) : String := job_id_of (some j.title) (some j.company_name) (some j.location)

/-! ## Pipeline Orchestrator (`run_scan`) -/

/-- One loop iteration's record value: the normalized job with its `id` key
set, exactly as built at the top of the inner loop of `run_scan`. -/
def record_job (rec : RawJob × String) : Job :=
  let j := normalize_job rec.1 rec.2
  { j with id := job_id j }

/-- The keyword gate of `run_scan`:
`any(kw.lower() in combined for kw in keywords)` with
`combined = f"[title] [snippet]".lower()` (title and snippet joined by one
space). -/
def keyword_match (keywords : List String) (job : Job) : Bool :=
  keywords.any (fun kw =>
    strContains (strLower (job.title ++ " " ++ job.description_snippet)) (strLower kw))

/-- In-memory state of one `run_scan` invocation: the (mutated) `seen` dict as
an association list with unique keys, and the two accumulator lists. -/
structure ScanState where
  seen : List (String × String)
  all_jobs : List Job
  new_jobs : List Job

/-- Python dict lookup on the seen mapping (keys are unique, so first match). -/
def seenLookup : List (String × String) → String → Option String
  | [], _ => none
  | (k, v) :: rest, key => if k = key then some v else seenLookup rest key

/-- The body of the inner loop of `run_scan` for one raw result: normalize,
compute the id, apply the keyword gate, append to `all_jobs`, and if the id is
not yet in `seen`, record it there and in `new_jobs`. -/
def process_record (keywords : List String) (st : ScanState) (rec : RawJob × String) : ScanState :=
  if keyword_match keywords (record_job rec) then
    if seenLookup st.seen (record_job rec).id = none then
      ⟨st.seen ++ [((record_job rec).id, (record_job rec).scraped_at)],
       st.all_jobs ++ [record_job rec],
       st.new_jobs ++ [record_job rec]⟩
    else
      ⟨st.seen, st.all_jobs ++ [record_job rec], st.new_jobs⟩
  else st

/-- The nested fetch loops of `run_scan`, folded over the flattened results. -/
def scan_fold (keywords : List String) (seen0 : List (String × String))
    (fetched : List (RawJob × String)) : ScanState :=
  fetched.foldl (process_record keywords) ⟨seen0, [], []⟩

/-- The dedup loop of `run_scan`: `acc` is the `seen_ids` set; returns the
kept jobs and the final `seen_ids`. -/
def dedup_pass : List String → List Job → List Job × List String
  | acc, [] => ([], acc)
  | acc, j :: rest =>
    if j.id ∈ acc then dedup_pass acc rest
    else
      let r := dedup_pass (j.id :: acc) rest
      (j :: r.1, r.2)

/-- `run_scan`: returns `(deduped_all, deduped_new, saved seen)`.  `save_seen`
persists the third component verbatim, so it stands for the post-run
Seen-Set. -/
def run_scan (keywords : List String) (seen0 : List (String × String))
    (fetched : List (RawJob × String)) :
    List Job × List Job × List (String × String) :=
  let st := scan_fold keywords seen0 fetched
  let d := dedup_pass [] st.all_jobs
  (d.1, st.new_jobs.filter (fun j => decide (j.id ∈ d.2)), st.seen)

/-- The accumulated (pre-dedup) `all_jobs` list of one run. -/
def accumulated_jobs (keywords : List String) (seen0 : List (String × String))
    (fetched : List (RawJob × String)) : List Job :=
  (scan_fold keywords seen0 fetched).all_jobs

/-- The loop invariant of `run_scan`'s accumulation phase, relative to the
Seen-Set `seen0` loaded at run start. -/
structure Inv (seen0 : List (String × String)) (st : ScanState) : Prop where
  mono : ∀ k v, seenLookup seen0 k = some v → seenLookup st.seen k = some v
  prov : ∀ k v, seenLookup st.seen k = some v →
    seenLookup seen0 k = some v ∨
      (seenLookup seen0 k = none ∧ ∃ j, j ∈ st.new_jobs ∧ j.id = k ∧ j.scraped_at = v)
  newNotSeen0 : ∀ j, j ∈ st.new_jobs → seenLookup seen0 j.id = none
  newInAll : ∀ j, j ∈ st.new_jobs → j ∈ st.all_jobs
  newNodup : (st.new_jobs.map Job.id).Nodup
  allSeen : ∀ j, j ∈ st.all_jobs → seenLookup st.seen j.id ≠ none
  firstOcc : ∀ j, j ∈ st.new_jobs →
    ∃ pre post, st.all_jobs = pre ++ j :: post ∧ ∀ x, x ∈ pre → x.id ≠ j.id

/-! ## Notifier (`send_email` and the gate in `main`) -/

/-- The `Subject` header built by `send_email`. -/
def email_subject (new_count : Nat) : String :=
  "GA Nurse Jobs: " ++ toString new_count ++ " new posting" ++ (if new_count ≠ 1 then "s" else "")

/-- `send_email`, abstracted to the list of SMTP sessions it opens (each
element is that session's message subject).  With any of `SMTP_USER`,
`SMTP_PASS`, `EMAIL_TO` unset (empty), it warns and returns without opening a
session. -/
def send_email_sessions (smtp_user smtp_pass email_to : String) (new_count : Nat) : List String :=
  if smtp_user = "" ∨ smtp_pass = "" ∨ email_to = "" then []
  else [email_subject new_count]

/-- The email gate in `main`: only when `email_enabled` and
(`new_jobs` nonempty or `FORCE_EMAIL` truthy) is `send_email` called at all. -/
def main_email (email_enabled force_email : Bool) (smtp_user smtp_pass email_to : String)
    (new_jobs : List Job) : List String :=
  if email_enabled then
    if new_jobs ≠ [] ∨ force_email = true then
      send_email_sessions smtp_user smtp_pass email_to new_jobs.length
    else []
  else []

/-! ## Spec-side comparison definition and concrete inputs -/

/-- Modelled from the spec's words for comparison with `keyword_match` (the
gate the code really applies): a keyword, case-folded, occurring as a
substring of the case-folded concatenation of title and description snippet,
with no separator between them. -/
def keyword_filter_claimed (keywords : List String) (job : Job) : Bool :=
  keywords.any (fun kw =>
    strContains (strLower (job.title ++ job.description_snippet)) (strLower kw))

/-- A raw posting that passes the `"nurse"` keyword gate. -/
def r1 : RawJob :=
  { title := some "Nurse", company_name := some "Acme", location := some "GA",
    description := none, apply_options := none, share_link := none,
    via := some "SiteA", detected_extensions := none }

/-- Same identity triple as `r1`, different `via`. -/
def r2 : RawJob := { r1 with via := some "SiteB" }

/-- Title `"a"`, description `"b"`: matched by the keyword `"a b"` only
because the code joins title and snippet with a space. -/
def raw_ab : RawJob :=
  { title := some "a", company_name := some "c", location := some "l",
    description := some "b", apply_options := none, share_link := none,
    via := none, detected_extensions := none }

/-- The spec's keyword-filter test case: title
`"PRN Infection Control Nurse"`. -/
def rPRN : RawJob := { r1 with title := some "PRN Infection Control Nurse" }

/-- A raw record with every optional field absent except a 600-character
description. -/
def raw600 : RawJob :=
  { title := none, company_name := none, location := none,
    description := some (String.mk (List.replicate 600 'x')),
    apply_options := none, share_link := none, via := none,
    detected_extensions := none }

/-! ## String lemmas -/

theorem prefixMatch_spec : ∀ (s h : List Char), prefixMatch s h = true ↔ ∃ rest, h = s ++ rest := by
  intro s
  induction s with
  | nil => intro h; simp [prefixMatch]
  | cons a s ih =>
    intro h
    cases h with
    | nil => simp [prefixMatch]
    | cons b t =>
      simp only [prefixMatch, Bool.and_eq_true, decide_eq_true_eq, ih t]
      constructor
      · rintro ⟨rfl, rest, rfl⟩; exact ⟨rest, rfl⟩
      · rintro ⟨rest, heq⟩
        injection heq with h1 h2
        exact ⟨h1.symm, rest, h2⟩

theorem containsSub_spec :
    ∀ (hay sub : List Char), containsSub hay sub = true ↔ ∃ pre post, hay = pre ++ sub ++ post := by
  intro hay
  induction hay with
  | nil =>
    intro sub
    simp only [containsSub, List.isEmpty_iff]
    constructor
    · rintro rfl; exact ⟨[], [], rfl⟩
    · rintro ⟨pre, post, h⟩
      rcases List.append_eq_nil.mp ((List.append_eq_nil).mp h.symm).1 with ⟨-, h2⟩
      exact h2
  | cons a t ih =>
    intro sub
    simp only [containsSub, Bool.or_eq_true, prefixMatch_spec, ih]
    constructor
    · rintro (⟨rest, h⟩ | ⟨pre, post, rfl⟩)
      · exact ⟨[], rest, by simpa using h⟩
      · exact ⟨a :: pre, post, rfl⟩
    · rintro ⟨pre, post, heq⟩
      cases pre with
      | nil => exact Or.inl ⟨post, by simpa using heq⟩
      | cons x pre' =>
        injection heq with h1 h2
        exact Or.inr ⟨pre', post, h2⟩

/-- Known-answer test grounding the SHA-256 embedding (FIPS 180-4 example). -/
theorem sha256_known_abc :
    String.mk (sha256_hexChars (utf8Bytes "abc")) =
      "ba7816bf8f01cfea414140de5dae2223b00361a396177a9cb410ff61f20015ad" := by decide

/-- Known-answer test: digest of the empty message. -/
theorem sha256_known_empty :
    String.mk (sha256_hexChars (utf8Bytes "")) =
      "e3b0c44298fc1c149afbf4c8996fb92427ae41e4649b934ca495991b7852b855" := by decide

theorem hexChar_isHex (n : Nat) : isHexChar (hexChar n) = true := by
  unfold hexChar
  split <;> rfl

theorem mem_wordHex_hex {c : Char} {w : Nat} (hc : c ∈ wordHex w) : isHexChar c = true := by
  simp only [wordHex, List.mem_cons, List.not_mem_nil, or_false] at hc
  rcases hc with h | h | h | h | h | h | h | h <;> (subst h; exact hexChar_isHex _)

theorem sha256_digestWords_length (msg : List Nat) : (sha256_digestWords msg).length = 8 := rfl

theorem flatten_map_wordHex_length (ws : List Nat) : ((ws.map wordHex).flatten).length = 8 * ws.length := by
  induction ws with
  | nil => rfl
  | cons w ws ih =>
    simp only [List.map_cons, List.flatten_cons, List.length_append, ih, List.length_cons]
    simp only [wordHex, List.length_cons, List.length_nil]
    omega

theorem sha256_hexChars_length (msg : List Nat) : (sha256_hexChars msg).length = 64 := by
  unfold sha256_hexChars
  rw [flatten_map_wordHex_length, sha256_digestWords_length]

theorem sha256_hexChars_hex (msg : List Nat) :
    ∀ c ∈ sha256_hexChars msg, isHexChar c = true := by
  intro c hc
  unfold sha256_hexChars at hc
  rw [List.mem_flatten] at hc
  rcases hc with ⟨l, hl, hcl⟩
  rcases List.mem_map.mp hl with ⟨w, _, rfl⟩
  exact mem_wordHex_hex hcl

/-! ## Seen-map lemmas -/

theorem seenLookup_append_some {l : List (String × String)} {k : String} {v : String}
    (h : seenLookup l k = some v) (l' : List (String × String)) :
    seenLookup (l ++ l') k = some v := by
  induction l with
  | nil => simp [seenLookup] at h
  | cons p rest ih =>
    obtain ⟨k0, v0⟩ := p
    by_cases hk : k0 = k
    · simpa [seenLookup, hk] using h
    · simp only [List.cons_append, seenLookup, if_neg hk] at h ⊢
      exact ih h

theorem seenLookup_append_none {l : List (String × String)} {k : String}
    (h : seenLookup l k = none) (l' : List (String × String)) :
    seenLookup (l ++ l') k = seenLookup l' k := by
  induction l with
  | nil => rfl
  | cons p rest ih =>
    obtain ⟨k0, v0⟩ := p
    by_cases hk : k0 = k
    · simp [seenLookup, hk] at h
    · simp only [List.cons_append, seenLookup, if_neg hk] at h ⊢
      exact ih h

theorem seenLookup_snoc_self {l : List (String × String)} {k : String}
    (h : seenLookup l k = none) (v : String) :
    seenLookup (l ++ [(k, v)]) k = some v := by
  rw [seenLookup_append_none h]
  simp [seenLookup]

theorem seenLookup_singleton {k0 v0 k : String} {v : String}
    (h : seenLookup [(k0, v0)] k = some v) : k0 = k ∧ v0 = v := by
  simp only [seenLookup] at h
  split at h
  · exact ⟨by assumption, by simpa using h⟩
  · simp at h

/-! ## Fold invariant over `process_record` -/

theorem foldl_pres {σ α : Type _} (f : σ → α → σ) (P : σ → Prop)
    (hf : ∀ s a, P s → P (f s a)) : ∀ (l : List α) (s : σ), P s → P (l.foldl f s)
  | [], _, hs => hs
  | a :: l, s, hs => foldl_pres f P hf l (f s a) (hf s a hs)

theorem Inv.init (seen0 : List (String × String)) : Inv seen0 ⟨seen0, [], []⟩ where
  mono := fun _ _ h => h
  prov := fun _ _ h => Or.inl h
  newNotSeen0 := by intro j h; simp at h
  newInAll := by intro j h; simp at h
  newNodup := by simp
  allSeen := by intro j h; simp at h
  firstOcc := by intro j h; simp at h

theorem nodup_snoc {l : List String} {a : String} (hl : l.Nodup) (ha : a ∉ l) :
    (l ++ [a]).Nodup := by
  rw [List.nodup_append]
  refine ⟨hl, List.nodup_singleton a, ?_⟩
  intro x hx hxa
  rw [List.mem_singleton] at hxa
  exact ha (hxa ▸ hx)

theorem process_record_inv (kws : List String) (seen0 : List (String × String))
    (st : ScanState) (rec : RawJob × String) (h : Inv seen0 st) :
    Inv seen0 (process_record kws st rec) := by
  unfold process_record
  split
  case isFalse => exact h
  case isTrue hkw =>
  split
  case isFalse hfound =>
    -- id already in seen: only all_jobs grows
    refine ⟨h.mono, h.prov, h.newNotSeen0, ?_, h.newNodup, ?_, ?_⟩
    · intro j hj
      exact List.mem_append_left _ (h.newInAll j hj)
    · intro j hj
      rcases List.mem_append.mp hj with hj | hj
      · exact h.allSeen j hj
      · rw [List.mem_singleton] at hj
        subst hj
        exact hfound
    · intro j hj
      obtain ⟨pre, post, heq, hpre⟩ := h.firstOcc j hj
      exact ⟨pre, post ++ [record_job rec], by rw [heq]; simp, hpre⟩
  case isTrue hnone =>
    -- fresh id: seen, all_jobs and new_jobs all grow
    have hmono' : ∀ k v, seenLookup st.seen k = some v →
        seenLookup (st.seen ++ [((record_job rec).id, (record_job rec).scraped_at)]) k = some v :=
      fun _ _ hk => seenLookup_append_some hk _
    have hid0 : seenLookup seen0 (record_job rec).id = none := by
      cases hs : seenLookup seen0 (record_job rec).id with
      | none => rfl
      | some w => exact absurd (h.mono _ _ hs) (by simp [hnone])
    refine ⟨?_, ?_, ?_, ?_, ?_, ?_, ?_⟩
    · intro k v hk
      exact hmono' k v (h.mono k v hk)
    · intro k v hk
      cases hs : seenLookup st.seen k with
      | some w =>
        have : some w = some v := by rw [← hmono' k w hs]; exact hk
        rcases h.prov k w hs with hpr | ⟨h0, j, hj, hjid, hjts⟩
        · exact Or.inl (by rwa [this] at hpr)
        · exact Or.inr ⟨h0, j, List.mem_append_left _ hj, hjid, by rw [hjts]; injection this⟩
      | none =>
        rw [seenLookup_append_none hs] at hk
        obtain ⟨hkid, hvts⟩ := seenLookup_singleton hk
        subst hkid
        refine Or.inr ⟨hid0, record_job rec, List.mem_append_right _ (by simp), rfl, hvts⟩
    · intro j hj
      rcases List.mem_append.mp hj with hj | hj
      · exact h.newNotSeen0 j hj
      · rw [List.mem_singleton] at hj
        subst hj
        exact hid0
    · intro j hj
      rcases List.mem_append.mp hj with hj | hj
      · exact List.mem_append_left _ (h.newInAll j hj)
      · exact List.mem_append_right _ hj
    · rw [List.map_append]
      refine nodup_snoc h.newNodup ?_
      intro hmem
      rcases List.mem_map.mp hmem with ⟨j, hj, hjid⟩
      exact (h.allSeen j (h.newInAll j hj)) (hjid ▸ hnone)
    · intro j hj
      rcases List.mem_append.mp hj with hj | hj
      · intro hcon
        have := h.allSeen j hj
        cases hs : seenLookup st.seen j.id with
        | some w => rw [hmono' _ _ hs] at hcon; simp at hcon
        | none => exact this hs
      · rw [List.mem_singleton] at hj
        subst hj
        rw [seenLookup_snoc_self hnone]
        simp
    · intro j hj
      rcases List.mem_append.mp hj with hj | hj
      · obtain ⟨pre, post, heq, hpre⟩ := h.firstOcc j hj
        exact ⟨pre, post ++ [record_job rec], by rw [heq]; simp, hpre⟩
      · rw [List.mem_singleton] at hj
        subst hj
        refine ⟨st.all_jobs, [], rfl, ?_⟩
        intro x hx hxid
        exact (h.allSeen x hx) (hxid ▸ hnone)

theorem scan_fold_inv (kws : List String) (seen0 : List (String × String))
    (fetched : List (RawJob × String)) : Inv seen0 (scan_fold kws seen0 fetched) :=
  foldl_pres (process_record kws) (Inv seen0)
    (fun st rec h => process_record_inv kws seen0 st rec h) fetched _ (Inv.init seen0)

/-! ## Dedup lemmas -/

theorem dedup_sublist : ∀ (l : List Job) (acc : List String),
    List.Sublist (dedup_pass acc l).1 l := by
  intro l
  induction l with
  | nil => intro acc; simp [dedup_pass]
  | cons j rest ih =>
    intro acc
    simp only [dedup_pass]
    split
    · exact List.Sublist.cons j (ih acc)
    · exact List.Sublist.cons₂ j (ih (j.id :: acc))

theorem dedup_fresh : ∀ (l : List Job) (acc : List String),
    ∀ j ∈ (dedup_pass acc l).1, j.id ∉ acc := by
  intro l
  induction l with
  | nil => intro acc j hj; simp [dedup_pass] at hj
  | cons j0 rest ih =>
    intro acc j hj
    simp only [dedup_pass] at hj
    split at hj
    · exact ih acc j hj
    · rcases List.mem_cons.mp hj with rfl | hj
      · assumption
      · intro hmem
        exact ih (j0.id :: acc) j hj (List.mem_cons_of_mem _ hmem)

theorem dedup_nodup : ∀ (l : List Job) (acc : List String),
    ((dedup_pass acc l).1.map Job.id).Nodup := by
  intro l
  induction l with
  | nil => intro acc; simp [dedup_pass]
  | cons j0 rest ih =>
    intro acc
    simp only [dedup_pass]
    split
    · exact ih acc
    · rw [List.map_cons, List.nodup_cons]
      refine ⟨?_, ih (j0.id :: acc)⟩
      intro hmem
      rcases List.mem_map.mp hmem with ⟨j, hj, hjid⟩
      exact dedup_fresh rest (j0.id :: acc) j hj (hjid ▸ List.mem_cons_self _ _)

theorem dedup_complete : ∀ (l : List Job) (acc : List String),
    ∀ j ∈ l, j.id ∈ acc ∨ ∃ j', j' ∈ (dedup_pass acc l).1 ∧ j'.id = j.id := by
  intro l
  induction l with
  | nil => intro acc j hj; simp at hj
  | cons j0 rest ih =>
    intro acc j hj
    simp only [dedup_pass]
    split
    case isTrue hin =>
      rcases List.mem_cons.mp hj with rfl | hj
      · exact Or.inl hin
      · exact ih acc j hj
    case isFalse hin =>
      rcases List.mem_cons.mp hj with rfl | hj
      · exact Or.inr ⟨j, List.mem_cons_self _ _, rfl⟩
      · rcases ih (j0.id :: acc) j hj with hacc | ⟨j', hj', hjid⟩
        · rcases List.mem_cons.mp hacc with heq | hacc
          · exact Or.inr ⟨j0, List.mem_cons_self _ _, heq.symm⟩
          · exact Or.inl hacc
        · exact Or.inr ⟨j', List.mem_cons_of_mem _ hj', hjid⟩

theorem dedup_first : ∀ (l : List Job) (acc : List String),
    ∀ j ∈ (dedup_pass acc l).1,
      ∃ pre post, l = pre ++ j :: post ∧ ∀ x ∈ pre, x.id ∉ acc → x.id ≠ j.id := by
  intro l
  induction l with
  | nil => intro acc j hj; simp [dedup_pass] at hj
  | cons j0 rest ih =>
    intro acc j hj
    simp only [dedup_pass] at hj
    split at hj
    case isTrue hin =>
      obtain ⟨pre, post, heq, hpre⟩ := ih acc j hj
      refine ⟨j0 :: pre, post, by rw [heq]; rfl, ?_⟩
      intro x hx hnacc
      rcases List.mem_cons.mp hx with rfl | hx
      · exact absurd hin hnacc
      · exact hpre x hx hnacc
    case isFalse hin =>
      rcases List.mem_cons.mp hj with rfl | hj
      · exact ⟨[], rest, rfl, by simp⟩
      · obtain ⟨pre, post, heq, hpre⟩ := ih (j0.id :: acc) j hj
        have hjne : j.id ≠ j0.id := by
          intro hcon
          exact dedup_fresh rest (j0.id :: acc) j hj (hcon ▸ List.mem_cons_self _ _)
        refine ⟨j0 :: pre, post, by rw [heq]; rfl, ?_⟩
        intro x hx _
        rcases List.mem_cons.mp hx with rfl | hx
        · exact fun hcon => hjne hcon.symm
        · intro hcon
          by_cases hxacc : x.id ∈ j0.id :: acc
          · rcases List.mem_cons.mp hxacc with hx0 | hxacc
            · exact hjne (hcon ▸ hx0)
            · exact dedup_fresh rest (j0.id :: acc) j hj
                (by rw [← hcon]; exact List.mem_cons_of_mem _ hxacc)
          · exact hpre x hx hxacc hcon

theorem dedup_ids : ∀ (l : List Job) (acc : List String),
    ∀ k, k ∈ (dedup_pass acc l).2 ↔ k ∈ acc ∨ ∃ j, j ∈ l ∧ j.id = k := by
  intro l
  induction l with
  | nil => intro acc k; simp [dedup_pass]
  | cons j0 rest ih =>
    intro acc k
    simp only [dedup_pass]
    split
    case isTrue hin =>
      rw [ih acc k]
      constructor
      · rintro (hk | ⟨j, hj, rfl⟩)
        · exact Or.inl hk
        · exact Or.inr ⟨j, List.mem_cons_of_mem _ hj, rfl⟩
      · rintro (hk | ⟨j, hj, rfl⟩)
        · exact Or.inl hk
        · rcases List.mem_cons.mp hj with rfl | hj
          · exact Or.inl hin
          · exact Or.inr ⟨j, hj, rfl⟩
    case isFalse hin =>
      rw [ih (j0.id :: acc) k]
      constructor
      · rintro (hk | ⟨j, hj, rfl⟩)
        · rcases List.mem_cons.mp hk with rfl | hk
          · exact Or.inr ⟨j0, List.mem_cons_self _ _, rfl⟩
          · exact Or.inl hk
        · exact Or.inr ⟨j, List.mem_cons_of_mem _ hj, rfl⟩
      · rintro (hk | ⟨j, hj, rfl⟩)
        · exact Or.inl (List.mem_cons_of_mem _ hk)
        · rcases List.mem_cons.mp hj with rfl | hj
          · exact Or.inl (List.mem_cons_self _ _)
          · exact Or.inr ⟨j, hj, rfl⟩

/-- Two first occurrences of the same identity key in the same list are the
same record. -/
theorem first_occ_unique :
    ∀ (p1 : List Job) (l s1 p2 s2 : List Job) (j j' : Job),
      l = p1 ++ j :: s1 → l = p2 ++ j' :: s2 →
      (∀ x ∈ p1, x.id ≠ j.id) → (∀ x ∈ p2, x.id ≠ j'.id) → j'.id = j.id → j' = j := by
  intro p1
  induction p1 with
  | nil =>
    intro l s1 p2 s2 j j' h1 h2 _ hp2 hid
    cases p2 with
    | nil =>
      rw [h1] at h2
      injection h2 with h2a _
      exact h2a.symm
    | cons y p2' =>
      rw [h1] at h2
      injection h2 with h2a _
      exact absurd (hid.symm) (h2a ▸ hp2 y (List.mem_cons_self _ _))
  | cons x p1' ih =>
    intro l s1 p2 s2 j j' h1 h2 hp1 hp2 hid
    cases p2 with
    | nil =>
      rw [h2] at h1
      injection h1 with h1a _
      exact absurd hid (h1a ▸ fun hcon => hp1 x (List.mem_cons_self _ _) (by rw [hcon]))
    | cons y p2' =>
      rw [h1] at h2
      injection h2 with h2a h2b
      exact ih (p1' ++ j :: s1) s1 p2' s2 j j' rfl h2b
        (fun z hz => hp1 z (List.mem_cons_of_mem _ hz))
        (fun z hz => hp2 z (List.mem_cons_of_mem _ hz)) hid

/-! ## `run_scan` projections and basic identities -/

theorem run_scan_all_eq (kws : List String) (seen0 : List (String × String))
    (fetched : List (RawJob × String)) :
    (run_scan kws seen0 fetched).1 = (dedup_pass [] (accumulated_jobs kws seen0 fetched)).1 := rfl

theorem run_scan_seen_eq (kws : List String) (seen0 : List (String × String))
    (fetched : List (RawJob × String)) :
    (run_scan kws seen0 fetched).2.2 = (scan_fold kws seen0 fetched).seen := rfl

theorem filter_all {α : Type _} (p : α → Bool) :
    ∀ (l : List α), (∀ a ∈ l, p a = true) → l.filter p = l := by
  intro l
  induction l with
  | nil => intro _; rfl
  | cons a t ih =>
    intro h
    rw [List.filter_cons_of_pos (h a (List.mem_cons_self _ _)),
        ih (fun b hb => h b (List.mem_cons_of_mem _ hb))]

/-- The final filter `[j for j in new_jobs if j["id"] in seen_ids]` keeps every
element of `new_jobs`, because each of them was appended to `all_jobs` too. -/
theorem run_scan_new_eq (kws : List String) (seen0 : List (String × String))
    (fetched : List (RawJob × String)) :
    (run_scan kws seen0 fetched).2.1 = (scan_fold kws seen0 fetched).new_jobs := by
  have inv := scan_fold_inv kws seen0 fetched
  show (scan_fold kws seen0 fetched).new_jobs.filter _ = _
  apply filter_all
  intro j hj
  have hall := inv.newInAll j hj
  have : j.id ∈ (dedup_pass [] (scan_fold kws seen0 fetched).all_jobs).2 :=
    (dedup_ids _ [] j.id).mpr (Or.inr ⟨j, hall, rfl⟩)
  simpa using this

/-! ## Timestamp independence of the id and the keyword gate -/

theorem record_job_id_time (r : RawJob) (t t' : String) :
    (record_job (r, t)).id = (record_job (r, t')).id := rfl

theorem keyword_match_time (kws : List String) (r : RawJob) (t t' : String) :
    keyword_match kws (record_job (r, t)) = keyword_match kws (record_job (r, t')) := rfl

/-! ## Idempotence machinery (claim C4) -/

theorem process_seen_mono (kws : List String) (st : ScanState) (rec : RawJob × String)
    (k : String) (h : seenLookup st.seen k ≠ none) :
    seenLookup (process_record kws st rec).seen k ≠ none := by
  unfold process_record
  split
  · split
    · cases hs : seenLookup st.seen k with
      | none => exact absurd hs h
      | some v => simp [seenLookup_append_some hs]
    · exact h
  · exact h

theorem fold_seen_mono (kws : List String) (fetched : List (RawJob × String))
    (st : ScanState) (k : String) (h : seenLookup st.seen k ≠ none) :
    seenLookup (fetched.foldl (process_record kws) st).seen k ≠ none :=
  foldl_pres (process_record kws) (fun s => seenLookup s.seen k ≠ none)
    (fun s rec hs => process_seen_mono kws s rec k hs) fetched st h

theorem process_self_covers (kws : List String) (st : ScanState) (rec : RawJob × String)
    (hkw : keyword_match kws (record_job rec) = true) :
    seenLookup (process_record kws st rec).seen (record_job rec).id ≠ none := by
  unfold process_record
  rw [if_pos hkw]
  split
  case isTrue hnone => simp [seenLookup_snoc_self hnone]
  case isFalse hfound => exact hfound

/-- After a full accumulation pass, every raw record that passes the keyword
gate has its identity key in the in-memory seen map. -/
theorem scan_fold_covers (kws : List String) :
    ∀ (fetched : List (RawJob × String)) (st : ScanState), ∀ rec ∈ fetched,
      keyword_match kws (record_job rec) = true →
      seenLookup ((fetched.foldl (process_record kws) st).seen) (record_job rec).id ≠ none := by
  intro fetched
  induction fetched with
  | nil => intro st rec h; simp at h
  | cons a l ih =>
    intro st rec hmem hkw
    rcases List.mem_cons.mp hmem with rfl | hmem'
    · exact fold_seen_mono kws l (process_record kws st rec) _
        (process_self_covers kws st rec hkw)
    · exact ih (process_record kws st a) rec hmem' hkw

/-- If every raw record that passes the gate is already in `seen`, the fold
adds nothing to `new_jobs` and leaves `seen` unchanged. -/
theorem fold_no_new (kws : List String) :
    ∀ (fetched : List (RawJob × String)) (st : ScanState),
      (∀ rec ∈ fetched, keyword_match kws (record_job rec) = true →
        seenLookup st.seen (record_job rec).id ≠ none) →
      (fetched.foldl (process_record kws) st).new_jobs = st.new_jobs ∧
      (fetched.foldl (process_record kws) st).seen = st.seen := by
  intro fetched
  induction fetched with
  | nil => intro st _; exact ⟨rfl, rfl⟩
  | cons a l ih =>
    intro st hcov
    have hstep : (process_record kws st a).new_jobs = st.new_jobs ∧
        (process_record kws st a).seen = st.seen := by
      unfold process_record
      split
      case isFalse => exact ⟨rfl, rfl⟩
      case isTrue hkw =>
        split
        case isTrue hnone =>
          exact absurd hnone (hcov a (List.mem_cons_self _ _) hkw)
        case isFalse => exact ⟨rfl, rfl⟩
    have hcov' : ∀ rec ∈ l, keyword_match kws (record_job rec) = true →
        seenLookup (process_record kws st a).seen (record_job rec).id ≠ none := by
      intro rec hrec hkw
      rw [hstep.2]
      exact hcov rec (List.mem_cons_of_mem _ hrec) hkw
    obtain ⟨h1, h2⟩ := ih (process_record kws st a) hcov'
    exact ⟨by rw [List.foldl_cons, h1, hstep.1], by rw [List.foldl_cons, h2, hstep.2]⟩

/-! ## Claim theorems -/

/-- C1: `all_jobs` as returned by `run_scan` has pairwise distinct identity
keys; it is a subsequence of the accumulated job list (so relative order of
distinct keys is unchanged); every accumulated identity key survives; and
the record kept for each key is the first one appended. -/
theorem run_scan_dedup_spec (kws : List String) (seen0 : List (String × String))
    (fetched : List (RawJob × String)) :
    (((run_scan kws seen0 fetched).1.map Job.id).Nodup) ∧
    List.Sublist (run_scan kws seen0 fetched).1 (accumulated_jobs kws seen0 fetched) ∧
    (∀ j ∈ accumulated_jobs kws seen0 fetched,
       ∃ j', j' ∈ (run_scan kws seen0 fetched).1 ∧ j'.id = j.id) ∧
    (∀ j ∈ (run_scan kws seen0 fetched).1,
       ∃ pre post, accumulated_jobs kws seen0 fetched = pre ++ j :: post ∧
         ∀ x ∈ pre, x.id ≠ j.id) := by
  rw [run_scan_all_eq]
  refine ⟨dedup_nodup _ [], dedup_sublist _ [], ?_, ?_⟩
  · intro j hj
    rcases dedup_complete _ [] j hj with h | h
    · simp at h
    · exact h
  · intro j hj
    obtain ⟨pre, post, heq, hpre⟩ := dedup_first _ [] j hj
    exact ⟨pre, post, heq, fun x hx => hpre x hx (List.not_mem_nil _)⟩

/-- Witness for C1 at a concrete run with a duplicated identity key. -/
theorem run_scan_dedup_spec_witness :
    ((run_scan ["nurse"] [] [(r1, "t1"), (r2, "t2")]).1.map Job.id).Nodup :=
  (run_scan_dedup_spec ["nurse"] [] [(r1, "t1"), (r2, "t2")]).1

/-- C2: every identity key of `new_jobs` also occurs in `all_jobs`, and was
absent from the Seen-Set loaded at the start of the run. -/
theorem run_scan_new_subset (kws : List String) (seen0 : List (String × String))
    (fetched : List (RawJob × String)) :
    ∀ j ∈ (run_scan kws seen0 fetched).2.1,
      (∃ j', j' ∈ (run_scan kws seen0 fetched).1 ∧ j'.id = j.id) ∧
      seenLookup seen0 j.id = none := by
  intro j hj
  rw [run_scan_new_eq] at hj
  have inv := scan_fold_inv kws seen0 fetched
  constructor
  · rw [run_scan_all_eq]
    rcases dedup_complete _ [] j (inv.newInAll j hj) with h | h
    · simp at h
    · exact h
  · exact inv.newNotSeen0 j hj

/-- Witness for C2 at a concrete run. -/
theorem run_scan_new_subset_witness :
    (∃ j', j' ∈ (run_scan ["nurse"] [] [(r1, "t1")]).1 ∧
       j'.id = (record_job (r1, "t1")).id) ∧
    seenLookup [] (record_job (r1, "t1")).id = none :=
  run_scan_new_subset ["nurse"] [] [(r1, "t1")] (record_job (r1, "t1")) (by decide)

/-- C3 counterexample: two processed records share the identity triple but
differ in `via` and `scraped_at`; the record `run_scan` returns carries the
FIRST-processed record's values, not the last-processed ones as claimed. -/
theorem run_scan_last_wins_cex :
    (record_job (r2, "t2")).id = (record_job (r1, "t1")).id ∧
    (run_scan ["nurse"] [] [(r1, "t1"), (r2, "t2")]).1.map Job.via = ["SiteA"] ∧
    (run_scan ["nurse"] [] [(r1, "t1"), (r2, "t2")]).1.map Job.scraped_at = ["t1"] ∧
    (record_job (r2, "t2")).via = "SiteB" ∧
    (record_job (r2, "t2")).scraped_at = "t2" ∧
    ("SiteA" : String) ≠ "SiteB" ∧ ("t1" : String) ≠ "t2" := by decide

/-- C3 amended: when processed records share an identity key, the single
record `run_scan` returns for that key is the first-processed one, so all its
non-identity fields (`description_snippet`, `apply_link`, `via`,
`detected_extensions`, `scraped_at`) are those of the first-processed record:
first-processed wins. -/
theorem run_scan_first_processed_wins (kws : List String) (seen0 : List (String × String))
    (fetched : List (RawJob × String)) :
    ∀ j ∈ (run_scan kws seen0 fetched).1,
      ∃ pre post, accumulated_jobs kws seen0 fetched = pre ++ j :: post ∧
        ∀ x ∈ pre, x.id ≠ j.id := by
  rw [run_scan_all_eq]
  intro j hj
  obtain ⟨pre, post, heq, hpre⟩ := dedup_first _ [] j hj
  exact ⟨pre, post, heq, fun x hx => hpre x hx (List.not_mem_nil _)⟩

/-- Witness for the amended C3 at a concrete run. -/
theorem run_scan_first_processed_wins_witness :
    ∃ pre post, accumulated_jobs ["nurse"] [] [(r1, "t1"), (r2, "t2")] =
      pre ++ record_job (r1, "t1") :: post ∧
      ∀ x ∈ pre, x.id ≠ (record_job (r1, "t1")).id :=
  run_scan_first_processed_wins ["nurse"] [] [(r1, "t1"), (r2, "t2")]
    (record_job (r1, "t1")) (by decide)

/-- C4: a second run starting from the Seen-Set saved by the first, over the
same raw source data (timestamps may differ), reports no new jobs. -/
theorem run_scan_idem (kws : List String) (seen0 : List (String × String))
    (f1 f2 : List (RawJob × String)) (h : f2.map Prod.fst = f1.map Prod.fst) :
    (run_scan kws (run_scan kws seen0 f1).2.2 f2).2.1 = [] := by
  rw [run_scan_new_eq, run_scan_seen_eq]
  have hcov : ∀ rec ∈ f2, keyword_match kws (record_job rec) = true →
      seenLookup (scan_fold kws seen0 f1).seen (record_job rec).id ≠ none := by
    intro rec hrec hkw
    obtain ⟨ra, ta⟩ := rec
    have hr : ra ∈ f2.map Prod.fst := List.mem_map_of_mem _ hrec
    rw [h] at hr
    rcases List.mem_map.mp hr with ⟨⟨rb, tb⟩, hrec1, hfst⟩
    obtain rfl : rb = ra := hfst
    have hkw1 : keyword_match kws (record_job (rb, tb)) = true := by
      rw [keyword_match_time kws rb tb ta]; exact hkw
    have hcv := scan_fold_covers kws f1 ⟨seen0, [], []⟩ (rb, tb) hrec1 hkw1
    rw [record_job_id_time rb ta tb]
    exact hcv
  exact (fold_no_new kws f2 ⟨(scan_fold kws seen0 f1).seen, [], []⟩ hcov).1

/-- Witness for C4: same raw record fetched again with a fresh timestamp. -/
theorem run_scan_idem_witness :
    ([(r1, "t2")].map Prod.fst = [(r1, "t1")].map Prod.fst) ∧
    (run_scan ["nurse"] (run_scan ["nurse"] [] [(r1, "t1")]).2.2 [(r1, "t2")]).2.1 = [] :=
  ⟨rfl, run_scan_idem ["nurse"] [] [(r1, "t1")] [(r1, "t2")] rfl⟩

/-- C5: `job_id` depends only on the (title, company_name, location) triple;
it is a 12-character string of hexadecimal characters; it is the 12-character
prefix of the SHA-256 hex digest of `"title-company_name-location"`; and
absent fields default to the empty string. -/
theorem job_id_spec :
    (∀ a b : Job, a.title = b.title → a.company_name = b.company_name →
       a.location = b.location → job_id a = job_id b) ∧
    (∀ j : Job, (job_id j).length = 12 ∧ ∀ c ∈ (job_id j).data, isHexChar c = true) ∧
    (∀ j : Job, job_id j =
       String.mk ((sha256_hexChars (utf8Bytes
         (j.title ++ "-" ++ j.company_name ++ "-" ++ j.location))).take 12)) ∧
    (∀ t c l : Option String,
       job_id_of t c l = job_id_of (some (t.getD "")) (some (c.getD "")) (some (l.getD ""))) := by
  refine ⟨?_, ?_, fun j => rfl, fun t c l => rfl⟩
  · intro a b h1 h2 h3
    unfold job_id job_id_of
    rw [h1, h2, h3]
  · intro j
    constructor
    · show ((sha256_hexChars _).take 12).length = 12
      rw [List.length_take, sha256_hexChars_length]
      decide
    · intro c hc
      have hc' : c ∈ (sha256_hexChars (utf8Bytes
          (j.title ++ "-" ++ j.company_name ++ "-" ++ j.location))).take 12 := hc
      exact sha256_hexChars_hex _ c (List.take_subset _ _ hc')

/-- Witness for C5: two concrete jobs equal on the identity triple but not on
`via` or `scraped_at` hash identically, and the key has length 12. -/
theorem job_id_spec_witness :
    job_id (record_job (r1, "t1")) = job_id (record_job (r2, "t2")) ∧
    (job_id (record_job (r1, "t1"))).length = 12 :=
  ⟨job_id_spec.1 (record_job (r1, "t1")) (record_job (r2, "t2")) rfl rfl rfl,
   (job_id_spec.2.1 (record_job (r1, "t1"))).1⟩

/-- C6 counterexample: with keyword `"a b"`, the job titled `"a"` with
snippet `"b"` is retained by the code (it reaches `all_jobs`), yet no
keyword is a substring of the case-folded concatenation of title and
snippet — the code matches against title and snippet joined by a space. -/
theorem keyword_filter_cex :
    keyword_match ["a b"] (record_job (raw_ab, "t")) = true ∧
    (run_scan ["a b"] [] [(raw_ab, "t")]).1.length = 1 ∧
    keyword_filter_claimed ["a b"] (record_job (raw_ab, "t")) = false := by decide

/-- C6 amended: the keyword gate retains a record iff some configured
keyword, case-folded, is a substring of the case-folded concatenation of the
title, a single space, and the description snippet; an empty keyword list
retains nothing. -/
theorem keyword_filter_amended (kws : List String) (j : Job) :
    (keyword_match kws j = true ↔
       ∃ kw, kw ∈ kws ∧ ∃ pre post,
         (strLower (j.title ++ " " ++ j.description_snippet)).data =
           pre ++ (strLower kw).data ++ post) ∧
    keyword_match [] j = false := by
  constructor
  · unfold keyword_match strContains
    rw [List.any_eq_true]
    constructor
    · rintro ⟨kw, hkw, hc⟩
      exact ⟨kw, hkw, (containsSub_spec _ _).mp hc⟩
    · rintro ⟨kw, hkw, hex⟩
      exact ⟨kw, hkw, (containsSub_spec _ _).mpr hex⟩
  · rfl

/-- Witness for the amended C6 at a concrete record: the spec test case
`"PRN Infection Control Nurse"` with keyword `"infection control"`. -/
theorem keyword_filter_amended_witness :
    (∃ kw, kw ∈ ["infection control"] ∧ ∃ pre post,
       (strLower ((record_job (rPRN, "t")).title ++ " " ++
         (record_job (rPRN, "t")).description_snippet)).data =
         pre ++ (strLower kw).data ++ post) ∧
    keyword_match [] (record_job (rPRN, "t")) = false :=
  ⟨(keyword_filter_amended ["infection control"] (record_job (rPRN, "t"))).1.mp (by decide),
   (keyword_filter_amended [] (record_job (rPRN, "t"))).2⟩

/-- C7: `normalize_job` is total and defaulting: missing title/company give
`"Unknown"`, missing location gives `""`, the snippet is the first 500
characters of the raw description (hard cut), and `apply_link` prefers the
first apply-option's link, then the share link, then `""`. -/
theorem normalize_job_spec (raw : RawJob) (now : String) :
    (raw.title = none → (normalize_job raw now).title = "Unknown") ∧
    (raw.company_name = none → (normalize_job raw now).company_name = "Unknown") ∧
    (raw.location = none → (normalize_job raw now).location = "") ∧
    ((normalize_job raw now).description_snippet.data =
       (raw.description.getD "").data.take 500) ∧
    (∀ o opts, raw.apply_options = some (o :: opts) →
       (normalize_job raw now).apply_link = o.link.getD "") ∧
    ((raw.apply_options = none ∨ raw.apply_options = some []) →
       (normalize_job raw now).apply_link = raw.share_link.getD "") ∧
    ((normalize_job raw now).scraped_at = now) := by
  refine ⟨?_, ?_, ?_, rfl, ?_, ?_, rfl⟩
  · intro h; simp [normalize_job, h]
  · intro h; simp [normalize_job, h]
  · intro h; simp [normalize_job, h]
  · intro o opts h
    simp [normalize_job, raw_apply_link, h]
  · intro h
    have hsf : share_fallback raw.share_link = raw.share_link.getD "" := by
      unfold share_fallback
      cases raw.share_link with
      | none => rfl
      | some s => by_cases hs : s = "" <;> simp [hs]
    rcases h with h | h <;> simp [normalize_job, raw_apply_link, h, hsf]

/-- Witness for C7: all optional fields absent, 600-character description. -/
theorem normalize_job_spec_witness :
    (normalize_job raw600 "t").title = "Unknown" ∧
    (normalize_job raw600 "t").company_name = "Unknown" ∧
    (normalize_job raw600 "t").location = "" ∧
    (normalize_job raw600 "t").apply_link = "" ∧
    (normalize_job raw600 "t").description_snippet.length = 500 :=
  ⟨(normalize_job_spec raw600 "t").1 rfl,
   (normalize_job_spec raw600 "t").2.1 rfl,
   (normalize_job_spec raw600 "t").2.2.1 rfl,
   by simpa using (normalize_job_spec raw600 "t").2.2.2.2.2.1 (Or.inl rfl),
   by
     have hdata := (normalize_job_spec raw600 "t").2.2.2.1
     show (normalize_job raw600 "t").description_snippet.data.length = 500
     rw [hdata]
     show ((List.replicate 600 'x').take 500).length = 500
     rw [List.length_take, List.length_replicate]
     decide⟩

/-- C8: the Seen-Set after a run extends the Seen-Set before it as a map —
old keys keep their values — and every added key belongs to a returned new
job, mapped to that job's `scraped_at`. -/
theorem run_scan_seen_superset (kws : List String) (seen0 : List (String × String))
    (fetched : List (RawJob × String)) :
    (∀ k v, seenLookup seen0 k = some v →
       seenLookup (run_scan kws seen0 fetched).2.2 k = some v) ∧
    (∀ k v, seenLookup (run_scan kws seen0 fetched).2.2 k = some v →
       seenLookup seen0 k = some v ∨
         (seenLookup seen0 k = none ∧
          ∃ j, j ∈ (run_scan kws seen0 fetched).2.1 ∧ j.id = k ∧ j.scraped_at = v)) := by
  have inv := scan_fold_inv kws seen0 fetched
  rw [run_scan_seen_eq, run_scan_new_eq]
  exact ⟨inv.mono, inv.prov⟩

/-- Witness for C8: a pre-run entry survives a run unchanged. -/
theorem run_scan_seen_superset_witness :
    seenLookup (run_scan ["nurse"] [("k", "v")] [(r1, "t1")]).2.2 "k" = some "v" :=
  (run_scan_seen_superset ["nurse"] [("k", "v")] [(r1, "t1")]).1 "k" "v" (by decide)

/-- C9: with zero new jobs and no force flag no SMTP session is attempted;
with exactly one new job (email enabled, credentials set) exactly one session
is attempted and its subject contains the singular `"1 new posting"`; and a
missing credential or recipient makes `send_email` a silent no-op. -/
theorem notifier_gate :
    (∀ enabled : Bool, ∀ u p t : String, main_email enabled false u p t [] = []) ∧
    (∀ (j : Job) (force : Bool) (u p t : String), u ≠ "" → p ≠ "" → t ≠ "" →
       main_email true force u p t [j] = [email_subject 1] ∧
       strContains (email_subject 1) "1 new posting" = true ∧
       strContains (email_subject 1) "1 new postings" = false) ∧
    (∀ (u p t : String) (n : Nat), (u = "" ∨ p = "" ∨ t = "") →
       send_email_sessions u p t n = []) := by
  refine ⟨?_, ?_, ?_⟩
  · intro enabled u p t
    cases enabled <;> simp [main_email]
  · intro j force u p t hu hp ht
    refine ⟨?_, by decide, by decide⟩
    simp [main_email, send_email_sessions, hu, hp, ht]
  · intro u p t n h
    unfold send_email_sessions
    rw [if_pos h]

/-- Witness for C9 at concrete credentials and one concrete new job. -/
theorem notifier_gate_witness :
    main_email true false "u" "p" "dst" [record_job (r1, "t1")] = [email_subject 1] ∧
    main_email true false "u" "p" "dst" [] = [] ∧
    send_email_sessions "" "p" "dst" 5 = [] :=
  ⟨(notifier_gate.2.1 (record_job (r1, "t1")) false "u" "p" "dst"
      (by decide) (by decide) (by decide)).1,
   notifier_gate.1 true "u" "p" "dst",
   notifier_gate.2.2 "" "p" "dst" 5 (Or.inl rfl)⟩

/-- C10: the returned `new_jobs` has pairwise distinct identity keys, and
each of its records is element-wise a member of the returned `all_jobs` —
the unique record there with its identity key, i.e. the one dedup kept. -/
theorem run_scan_new_first (kws : List String) (seen0 : List (String × String))
    (fetched : List (RawJob × String)) :
    (((run_scan kws seen0 fetched).2.1.map Job.id).Nodup) ∧
    ∀ j ∈ (run_scan kws seen0 fetched).2.1,
      j ∈ (run_scan kws seen0 fetched).1 ∧
      ∀ j' ∈ (run_scan kws seen0 fetched).1, j'.id = j.id → j' = j := by
  have inv := scan_fold_inv kws seen0 fetched
  rw [run_scan_new_eq, run_scan_all_eq]
  refine ⟨inv.newNodup, ?_⟩
  intro j hj
  obtain ⟨pre, post, heq, hpre⟩ := inv.firstOcc j hj
  have hall := inv.newInAll j hj
  have huniq : ∀ j' ∈ (dedup_pass [] (accumulated_jobs kws seen0 fetched)).1,
      j'.id = j.id → j' = j := by
    intro j' hj' hid
    obtain ⟨pre', post', heq', hpre'⟩ := dedup_first _ [] j' hj'
    exact first_occ_unique pre (accumulated_jobs kws seen0 fetched) post pre' post' j j'
      heq heq' hpre (fun x hx => hpre' x hx (List.not_mem_nil _)) hid
  constructor
  · rcases dedup_complete _ [] j hall with h | ⟨j', hj', hid⟩
    · simp at h
    · exact (huniq j' hj' hid) ▸ hj'
  · exact huniq

/-- Witness for C10 at a concrete run with a duplicated identity key. -/
theorem run_scan_new_first_witness :
    ((run_scan ["nurse"] [] [(r1, "t1"), (r2, "t2")]).2.1.map Job.id).Nodup :=
  (run_scan_new_first ["nurse"] [] [(r1, "t1"), (r2, "t2")]).1

end Scraper
